import Mathlib

/-!
Shallow embedding of src/main.rs (theoparis/nix-compiler), a parser for a
small Nix-like expression language built with the chumsky 1.0 combinator
library.  The embedding mirrors the combinator structure of the source
exactly:

* a parser is a function from the input, a position, and the current
  best-so-far error (chumsky's internal alternative error) to an optional
  value-plus-new-position and the updated best error;
* `or` backtracks on failure (PEG semantics) and keeps the error that got
  furthest into the input, merging expected sets at equal positions
  (chumsky's `add_alt` / `Error::merge`);
* `repeated` is possessive: it consumes greedily and never gives back
  repetitions;
* `labelled` without `as_context` (as in the source) replaces the expected
  set of an error that occurred exactly at the labelled rule's start
  position, and otherwise leaves the error untouched; in particular it never
  pushes onto the error's context stack;
* the source uses no `recover_with` strategy, so a parse run reports at most
  one error: on success with full input consumed, none; otherwise the single
  furthest error;
* `Parser::parse` requires full input consumption (it behaves as the parser
  followed by `end()`).

Machine-level choices: identifiers and whitespace are modelled at the ASCII
subset exercised by the grammar (the source uses Unicode identifier and
whitespace classes, which agree with the model on ASCII input).  The `Num`
payload, an `f64` in the source, is modelled by the natural number value of
the matched digit string: the source builds numbers only from decimal digit
runs via `s.parse::<f64>().unwrap()`, which never fails on such strings.
This natural-number payload coincides with the program's `f64` exactly when
the digit string's value is below `2 ^ 53` (binary64 represents every such
integer exactly); for larger digit strings the program stores the rounded
`f64`, which the model does not track, so any theorem here that asserts the
exact payload of a literal carries that bound (or uses concrete values far
below it).
-/

/-- Expected-item patterns of a rich parse error (chumsky's `RichPattern`),
at the granularity the diagnostics of this program need. -/
inductive Pat where
  | tok : Char → Pat
  | identLike : Pat
  | intLike : Pat
  | kw : String → Pat
  | label : String → Pat
  | endInput : Pat
deriving DecidableEq, Repr

/-- A rich parse error (chumsky's `Rich`): the found token (none at end of
input), the primary span, the expected set, and the context-label stack
reported by `contexts()`. -/
structure RErr where
  found : Option Char
  span : Nat × Nat
  expected : List Pat
  contexts : List (String × Nat × Nat)
deriving DecidableEq, Repr

/-- An error located at the input offset where it was raised (chumsky's
internal `Located`); the offset orders competing errors. -/
structure LocErr where
  pos : Nat
  err : RErr
deriving DecidableEq, Repr

/-- The AST of src/main.rs (`enum Expr`).  Borrowed `&str` names become
`String`; the `f64` of `Num` is modelled by the natural number value of the
digit literal it was built from.  This is faithful to the program's `f64`
only for values below `2 ^ 53`, where binary64 is exact; statements about
the exact payload of arbitrary literals must therefore be restricted to
that range. -/
inductive Expr where
  | Num : Nat → Expr
  | Reference : String → Expr
  | Neg : Expr → Expr
  | Add : Expr → Expr → Expr
  | Sub : Expr → Expr → Expr
  | Mul : Expr → Expr → Expr
  | Div : Expr → Expr → Expr
  | Binding : String → Expr → Expr
  | LetIn : List Expr → Expr → Expr
  | Call : String → List Expr → Expr
  | Lambda : String → Expr → Expr
deriving Repr

/-- Merge two errors raised at the same offset: union the expected sets
(chumsky's `Rich::merge`). -/
def mergeE (a b : RErr) : RErr :=
  { a with expected := a.expected ++ b.expected }

/-- Keep the better of the current best error and a new one: the one
further into the input wins; at equal offsets the two are merged
(chumsky's `add_alt`). -/
def addAlt (alt : Option LocErr) (e : LocErr) : Option LocErr :=
  match alt with
  | none => some e
  | some a =>
    if a.pos < e.pos then some e
    else if a.pos = e.pos then some ⟨a.pos, mergeE a.err e.err⟩
    else some a

/-- A parser over the input character list: given the current position and
best error, produce an optional (value, new position) plus the updated best
error. -/
abbrev Parser (α : Type) : Type :=
  List Char → Nat → Option LocErr → Option (α × Nat) × Option LocErr

/-- ASCII whitespace, agreeing with Rust's whitespace class on the inputs
the grammar handles. -/
def wsChar (c : Char) : Bool :=
  c = ' ' || c = '\t' || c = '\n' || c = '\r'

/-- A character that may start an identifier (`text::ident()`). -/
def identStartChar (c : Char) : Bool := c.isAlpha || c = '_'

/-- A character that may continue an identifier. -/
def identChar (c : Char) : Bool := c.isAlphanum || c = '_'

/-- A decimal digit. -/
def digitChar (c : Char) : Bool := c.isDigit

/-- Length of the longest prefix of a list whose characters all pass `f`. -/
def scanLen (f : Char → Bool) : List Char → Nat
  | [] => 0
  | c :: rest => if f c then scanLen f rest + 1 else 0

/-- First position at or after `pos` whose character fails `f` (or the end
of input). -/
def scanWhile (f : Char → Bool) (s : List Char) (pos : Nat) : Nat :=
  pos + scanLen f (s.drop pos)

/-- Skip whitespace (the two sides of chumsky's `padded()`). -/
def skipWs (s : List Char) (pos : Nat) : Nat := scanWhile wsChar s pos

/-- The source slice between two positions, as a string. -/
def sliceStr (s : List Char) (a b : Nat) : String :=
  String.mk ((s.drop a).take (b - a))

/-- Build an error at `pos`: found the character there (none at end of
input), with primary span covering it. -/
def mkErr (s : List Char) (pos : Nat) (exp : List Pat) : LocErr :=
  match s[pos]? with
  | some c => ⟨pos, ⟨some c, (pos, pos + 1), exp, []⟩⟩
  | none => ⟨pos, ⟨none, (pos, pos), exp, []⟩⟩

/-- `just(c)`: match exactly the character `c`. -/
def pjust (c : Char) : Parser Char := fun s pos alt =>
  if s[pos]? = some c then (some (c, pos + 1), alt)
  else (none, addAlt alt (mkErr s pos [.tok c]))

/-- `map`. -/
def pmap {α β : Type} (f : α → β) (p : Parser α) : Parser β := fun s pos alt =>
  match p s pos alt with
  | (some (v, q), a) => (some (f v, q), a)
  | (none, a) => (none, a)

/-- `then`: sequence two parsers, pairing their outputs. -/
def pseq {α β : Type} (p : Parser α) (q : Parser β) : Parser (α × β) := fun s pos alt =>
  match p s pos alt with
  | (some (v, p1), a) =>
    match q s p1 a with
    | (some (w, p2), a2) => (some ((v, w), p2), a2)
    | (none, a2) => (none, a2)
  | (none, a) => (none, a)

/-- `then_ignore`. -/
def pthenIgnore {α β : Type} (p : Parser α) (q : Parser β) : Parser α :=
  pmap Prod.fst (pseq p q)

/-- `ignore_then`. -/
def pignoreThen {α β : Type} (p : Parser α) (q : Parser β) : Parser β :=
  pmap Prod.snd (pseq p q)

/-- `to`: replace the output with a constant. -/
def pto {α β : Type} (b : β) (p : Parser α) : Parser β :=
  pmap (fun _ => b) p

/-- `or`: try the first parser; on failure rewind and try the second with
the updated best error. -/
def por {α : Type} (p q : Parser α) : Parser α := fun s pos alt =>
  match p s pos alt with
  | (some r, a) => (some r, a)
  | (none, a) => q s pos a

/-- `padded()`: consume whitespace before and after the inner parser. -/
def ppadded {α : Type} (p : Parser α) : Parser α := fun s pos alt =>
  match p s (skipWs s pos) alt with
  | (some (v, q), a) => (some (v, skipWs s q), a)
  | (none, a) => (none, a)

/-- `delimited_by(just(l), just(r))`. -/
def pdelimBy {α : Type} (p : Parser α) (l r : Char) : Parser α :=
  pignoreThen (pjust l) (pthenIgnore p (pjust r))

/-- `text::ident()`: an identifier-start character followed by identifier
characters, returned as a slice. -/
def rawIdent : Parser String := fun s pos alt =>
  match s[pos]? with
  | some c =>
    if identStartChar c then
      let e := scanWhile identChar s (pos + 1)
      (some (sliceStr s pos e, e), alt)
    else (none, addAlt alt (mkErr s pos [.identLike]))
  | none => (none, addAlt alt (mkErr s pos [.identLike]))

/-- `text::ident().padded()` (the `ident` of the source). -/
def identP : Parser String := ppadded rawIdent

/-- `text::keyword(k)`: an identifier whose slice equals `k` exactly. -/
def keywordP (k : String) : Parser Unit := fun s pos alt =>
  match rawIdent s pos alt with
  | (some (w, q), a) =>
    if w = k then (some ((), q), a)
    else (none, addAlt a ⟨q, ⟨s[pos]?, (pos, q), [.kw k], []⟩⟩)
  | (none, a) => (none, a)

/-- `text::int(10)`: a non-zero digit followed by digits, or the lone digit
zero (leading zeros are not part of an int), returned as the digit slice. -/
def rawInt : Parser (List Char) := fun s pos alt =>
  match s[pos]? with
  | some c =>
    if digitChar c && !(c = '0') then
      let e := scanWhile digitChar s (pos + 1)
      (some ((s.drop pos).take (e - pos), e), alt)
    else if c = '0' then (some (['0'], pos + 1), alt)
    else (none, addAlt alt (mkErr s pos [.intLike]))
  | none => (none, addAlt alt (mkErr s pos [.intLike]))

/-- Numeric value of a digit string (the value `str::parse::<f64>` yields on
a decimal digit run, which never fails there). -/
def natOfDigits (ds : List Char) : Nat :=
  List.foldl (fun a c => 10 * a + (c.toNat - 48)) 0 ds

/-- The `int` parser of the source: padded digits mapped to `Num`. -/
def intP : Parser Expr :=
  ppadded (pmap (fun ds => Expr.Num (natOfDigits ds)) rawInt)

/-- The `op` helper of the source: a padded single character. -/
def opP (c : Char) : Parser Char := ppadded (pjust c)

/-- Greedy repetition loop of `repeated()`: collect successful parses until
the first failure, bounded by a fuel that exceeds any possible number of
input-consuming repetitions. -/
def prepGo {α : Type} (p : Parser α) :
    Nat → List Char → Nat → Option LocErr → (List α × Nat × Option LocErr)
  | 0, _, pos, alt => ([], pos, alt)
  | fuel + 1, s, pos, alt =>
    match p s pos alt with
    | (some (v, q), a) =>
      let r := prepGo p fuel s q a
      (v :: r.1, r.2.1, r.2.2)
    | (none, a) => ([], pos, a)

/-- `repeated().at_least(min).collect()`: possessive repetition with a
minimum count. -/
def prepC {α : Type} (min : Nat) (p : Parser α) : Parser (List α) := fun s pos alt =>
  let r := prepGo p (s.length + 1) s pos alt
  if min ≤ r.1.length then (some (r.1, r.2.1), r.2.2) else (none, r.2.2)

/-- Iteration loop of `foldl`: repeatedly parse the step parser, folding
its outputs into the accumulator, until the first failure. -/
def pfoldlGo {α β : Type} (q : Parser β) (f : α → β → α) :
    Nat → List Char → α → Nat → Option LocErr → (α × Nat × Option LocErr)
  | 0, _, acc, pos, alt => (acc, pos, alt)
  | fuel + 1, s, acc, pos, alt =>
    match q s pos alt with
    | (some (b, p2), a) => pfoldlGo q f fuel s (f acc b) p2 a
    | (none, a) => (acc, pos, a)

/-- `p.foldl(q.repeated(), f)` of the source. -/
def pfoldl {α β : Type} (p : Parser α) (q : Parser β) (f : α → β → α) : Parser α :=
  fun s pos alt =>
    match p s pos alt with
    | (some (v, p1), a) =>
      let r := pfoldlGo q f (s.length + 1) s v p1 a
      (some (r.1, r.2.1), r.2.2)
    | (none, a) => (none, a)

/-- `ops.repeated().foldr(p, f)` of the source: possessively collect the
prefix operators, then parse the operand and fold. -/
def pfoldr {α β : Type} (ops : Parser β) (p : Parser α) (f : β → α → α) : Parser α :=
  fun s pos alt =>
    let r := prepGo ops (s.length + 1) s pos alt
    match p s r.2.1 r.2.2 with
    | (some (v, p2), a2) => (some (r.1.foldr f v, p2), a2)
    | (none, a2) => (none, a2)

/-- `labelled(lbl)` (and `labelled(lbl).as_context()` when `isCtx` is true,
which the source never uses): run the inner parser with a fresh best error;
if it raised one exactly at the rule's start, replace its expected set with
the label; if deeper and `isCtx`, push a context; then merge back. -/
def plabelled {α : Type} (lbl : String) (isCtx : Bool) (p : Parser α) : Parser α :=
  fun s pos alt =>
    match p s pos none with
    | (res, inner) =>
      let processed : Option LocErr := inner.map (fun l =>
        if l.pos = pos then ⟨l.pos, { l.err with expected := [.label lbl] }⟩
        else if isCtx then
          ⟨l.pos, { l.err with contexts := l.err.contexts ++ [(lbl, pos, l.pos)] }⟩
        else l)
      let a2 := match processed with
        | none => alt
        | some l => addAlt alt l
      (res, a2)

/-- The `call` rule of the source, over the recursive expression knot: an
identifier followed by at least one whitespace-separated argument, each
argument a full expression. -/
def callP (expr : Parser Expr) : Parser Expr :=
  pmap (fun fa : String × List Expr => Expr.Call fa.1 fa.2)
    (pseq identP (prepC 1 (ppadded expr)))

/-- The `atom` rule of the source: integer, parenthesized expression, call,
or bare identifier, tried in that order. -/
def atomP (expr : Parser Expr) : Parser Expr :=
  por intP (por (pdelimBy expr '(' ')') (por (callP expr) (pmap Expr.Reference identP)))

/-- The `unary` rule of the source: prefix minus signs right-folded over an
atom. -/
def unaryP (expr : Parser Expr) : Parser Expr :=
  pfoldr (opP '-') (atomP expr) (fun _ r => Expr.Neg r)

/-- The `product` rule of the source: a left fold over `*` and `/`. -/
def productP (expr : Parser Expr) : Parser Expr :=
  pfoldl (unaryP expr)
    (pseq (por (pto (fun a b => Expr.Mul a b) (opP '*'))
               (pto (fun a b => Expr.Div a b) (opP '/'))) (unaryP expr))
    (fun l gr => gr.1 l gr.2)

/-- The `sum` rule of the source: a left fold over `+` and `-`. -/
def sumP (expr : Parser Expr) : Parser Expr :=
  pfoldl (productP expr)
    (pseq (por (pto (fun a b => Expr.Add a b) (opP '+'))
               (pto (fun a b => Expr.Sub a b) (opP '-'))) (productP expr))
    (fun l gr => gr.1 l gr.2)

/-- The `expr` recursive knot of the source, with fuel bounding the
recursion depth (each unfolding past the first consumes input, so any fuel
beyond the input length is never exhausted). -/
def exprP : Nat → Parser Expr
  | 0 => fun s pos alt => (none, addAlt alt (mkErr s pos []))
  | n + 1 => sumP (exprP n)

/-- The `binding` rule of the source: `ident '=' decl ';'`, padded, mapped
to `Binding`, labelled. -/
def bindingP (decl : Parser Expr) : Parser Expr :=
  plabelled "binding" false
    (pmap (fun nv : String × Expr => Expr.Binding nv.1 nv.2)
      (ppadded (pthenIgnore (pseq (pthenIgnore identP (pjust '=')) decl) (pjust ';'))))

/-- The `let_in` rule of the source: keyword `let`, any number of bindings,
keyword `in`, then a declaration body, labelled. -/
def letInP (decl : Parser Expr) : Parser Expr :=
  plabelled "let-in" false
    (pmap (fun bb : List Expr × Expr => Expr.LetIn bb.1 bb.2)
      (pseq (pthenIgnore (pignoreThen (keywordP "let") (prepC 0 (bindingP decl)))
                         (keywordP "in")) decl))

/-- The `func` rule of the source: `ident ':' decl`, mapped to `Lambda`. -/
def funcP (decl : Parser Expr) : Parser Expr :=
  pmap (fun ab : String × Expr => Expr.Lambda ab.1 ab.2)
    (pseq (pthenIgnore identP (pjust ':')) decl)

/-- The `decl` recursive knot of the source:
`let_in.or(func).or(expr).padded()`. -/
def declP : Nat → Parser Expr
  | 0 => fun s pos alt => (none, addAlt alt (mkErr s pos []))
  | n + 1 => ppadded (por (letInP (declP n)) (por (funcP (declP n)) (exprP (n + 1))))

/-- Fuel for a whole parse: ample for the recursion depth any input of this
length can force. -/
def parseFuel (s : List Char) : Nat := 2 * s.length + 4

/-- `parser().parse(src).into_output_errors()` on a character list: run the
declaration grammar, require full input consumption (`end()`), and report
either the tree with no errors or no tree with the single best error. -/
def parseChars (s : List Char) : Option Expr × List RErr :=
  match declP (parseFuel s) s 0 none with
  | (some (e, p), alt) =>
    if p = s.length then (some e, [])
    else (none, ((addAlt alt (mkErr s p [.endInput])).map LocErr.err).toList)
  | (none, alt) => (none, (alt.map LocErr.err).toList)

/-- The whole program's parse, on a string. -/
def parse (s : String) : Option Expr × List RErr := parseChars s.data

mutual
/-- Every `Call` node in the tree has at least one argument. -/
def callsOk : Expr → Bool
  | .Num _ => true
  | .Reference _ => true
  | .Neg e => callsOk e
  | .Add a b => callsOk a && callsOk b
  | .Sub a b => callsOk a && callsOk b
  | .Mul a b => callsOk a && callsOk b
  | .Div a b => callsOk a && callsOk b
  | .Binding _ v => callsOk v
  | .LetIn bs b => callsOkL bs && callsOk b
  | .Call _ args => !args.isEmpty && callsOkL args
  | .Lambda _ b => callsOk b

/-- `callsOk` over every element of a list. -/
def callsOkL : List Expr → Bool
  | [] => true
  | e :: es => callsOk e && callsOkL es
end

/-- A postcondition on every successful output of a parser. -/
def EnsP {α : Type} (p : Parser α) (P : α → Prop) : Prop :=
  ∀ s pos alt v q a, p s pos alt = (some (v, q), a) → P v

/-- Bridge a `UInt32` comparison to its numeric value. -/
theorem ule_iff {a b : UInt32} : a ≤ b ↔ a.toNat ≤ b.toNat := by
  rw [UInt32.le_def, BitVec.le_def]; rfl

/-- A decimal digit has code point between 48 and 57. -/
theorem digit_toNat {c : Char} (h : digitChar c = true) :
    48 ≤ c.toNat ∧ c.toNat ≤ 57 := by
  unfold digitChar at h
  simp [Char.isDigit, ge_iff_le] at h
  obtain ⟨h1, h2⟩ := h
  exact ⟨ule_iff.mp h1, ule_iff.mp h2⟩

/-- Characters with equal code points are equal. -/
theorem char_eq_of_toNat {c d : Char} (h : c.toNat = d.toNat) : c = d :=
  Char.ext (UInt32.ext h)

/-- A decimal digit is one of the ten digit characters. -/
theorem digit_enum {c : Char} (h : digitChar c = true) :
    c = '0' ∨ c = '1' ∨ c = '2' ∨ c = '3' ∨ c = '4' ∨
    c = '5' ∨ c = '6' ∨ c = '7' ∨ c = '8' ∨ c = '9' := by
  obtain ⟨h1, h2⟩ := digit_toNat h
  have hk : c.toNat = 48 ∨ c.toNat = 49 ∨ c.toNat = 50 ∨ c.toNat = 51 ∨
      c.toNat = 52 ∨ c.toNat = 53 ∨ c.toNat = 54 ∨ c.toNat = 55 ∨
      c.toNat = 56 ∨ c.toNat = 57 := by omega
  rcases hk with hk|hk|hk|hk|hk|hk|hk|hk|hk|hk <;>
    [exact Or.inl (char_eq_of_toNat hk);
     exact Or.inr (Or.inl (char_eq_of_toNat hk));
     exact Or.inr (Or.inr (Or.inl (char_eq_of_toNat hk)));
     exact Or.inr (Or.inr (Or.inr (Or.inl (char_eq_of_toNat hk))));
     exact Or.inr (Or.inr (Or.inr (Or.inr (Or.inl (char_eq_of_toNat hk)))));
     exact Or.inr (Or.inr (Or.inr (Or.inr (Or.inr (Or.inl (char_eq_of_toNat hk))))));
     exact Or.inr (Or.inr (Or.inr (Or.inr (Or.inr (Or.inr (Or.inl (char_eq_of_toNat hk)))))));
     exact Or.inr (Or.inr (Or.inr (Or.inr (Or.inr (Or.inr (Or.inr (Or.inl (char_eq_of_toNat hk))))))));
     exact Or.inr (Or.inr (Or.inr (Or.inr (Or.inr (Or.inr (Or.inr (Or.inr (Or.inl (char_eq_of_toNat hk)))))))));
     exact Or.inr (Or.inr (Or.inr (Or.inr (Or.inr (Or.inr (Or.inr (Or.inr (Or.inr (char_eq_of_toNat hk)))))))))]

/-- A digit is not whitespace. -/
theorem digit_not_ws {c : Char} (h : digitChar c = true) : wsChar c = false := by
  rcases digit_enum h with rfl|rfl|rfl|rfl|rfl|rfl|rfl|rfl|rfl|rfl <;> decide

/-- A digit cannot start an identifier. -/
theorem digit_not_identStart {c : Char} (h : digitChar c = true) :
    identStartChar c = false := by
  rcases digit_enum h with rfl|rfl|rfl|rfl|rfl|rfl|rfl|rfl|rfl|rfl <;> decide

/-- A digit is none of the operator or punctuation characters of the
grammar. -/
theorem digit_ne {c : Char} (h : digitChar c = true) (d : Char)
    (hd : d.toNat < 48 ∨ 57 < d.toNat) : c ≠ d := by
  obtain ⟨h1, h2⟩ := digit_toNat h
  intro e
  rw [e] at h1 h2
  omega

/-- Scanning stops immediately at or past the end of input. -/
theorem scanWhile_ge {f : Char → Bool} {s : List Char} {pos : Nat}
    (h : s.length ≤ pos) : scanWhile f s pos = pos := by
  unfold scanWhile
  rw [List.drop_eq_nil_of_le h]
  rfl

/-- Scanning stops on a character that fails the test. -/
theorem scanWhile_stop {f : Char → Bool} {s : List Char} {pos : Nat}
    (hlt : pos < s.length) (hf : f (s.get ⟨pos, hlt⟩) = false) :
    scanWhile f s pos = pos := by
  unfold scanWhile
  rw [List.drop_eq_getElem_cons hlt]
  unfold scanLen
  rw [List.get_eq_getElem] at hf
  rw [hf]
  simp

/-- A list all of whose characters pass the test scans to its length. -/
theorem scanLen_all {f : Char → Bool} {l : List Char}
    (hall : ∀ c ∈ l, f c = true) : scanLen f l = l.length := by
  induction l with
  | nil => rfl
  | cons c rest ih =>
    unfold scanLen
    rw [hall c (by simp), ih (fun d hd => hall d (by simp [hd]))]
    simp

/-- Scanning a list all of whose characters pass the test reaches the end. -/
theorem scanWhile_all {f : Char → Bool} {s : List Char}
    (hall : ∀ c ∈ s, f c = true) :
    ∀ pos, pos ≤ s.length → scanWhile f s pos = s.length := by
  intro pos h
  unfold scanWhile
  rw [scanLen_all (fun c hc => hall c (List.mem_of_mem_drop hc)), List.length_drop]
  omega

/-- Evaluation rule: mapping a failing parser fails identically. -/
theorem pmap_eq_fail {α β : Type} {f : α → β} {p : Parser α}
    {s : List Char} {pos : Nat} {alt a : Option LocErr}
    (h : p s pos alt = (none, a)) : pmap f p s pos alt = (none, a) := by
  unfold pmap; rw [h]

/-- Evaluation rule: mapping a succeeding parser maps its value. -/
theorem pmap_eq_succ {α β : Type} {f : α → β} {p : Parser α}
    {s : List Char} {pos q : Nat} {alt a : Option LocErr} {v : α}
    (h : p s pos alt = (some (v, q), a)) :
    pmap f p s pos alt = (some (f v, q), a) := by
  unfold pmap; rw [h]

/-- Evaluation rule: a sequence whose first part fails, fails. -/
theorem pseq_eq_fail1 {α β : Type} {p : Parser α} {q : Parser β}
    {s : List Char} {pos : Nat} {alt a : Option LocErr}
    (h : p s pos alt = (none, a)) : pseq p q s pos alt = (none, a) := by
  unfold pseq; rw [h]

/-- Evaluation rule: a sequence whose second part fails, fails. -/
theorem pseq_eq_fail2 {α β : Type} {p : Parser α} {q : Parser β}
    {s : List Char} {pos p1 : Nat} {alt a1 a2 : Option LocErr} {v : α}
    (h1 : p s pos alt = (some (v, p1), a1)) (h2 : q s p1 a1 = (none, a2)) :
    pseq p q s pos alt = (none, a2) := by
  unfold pseq; rw [h1]; dsimp only; rw [h2]

/-- Evaluation rule: a sequence of two successes pairs the values. -/
theorem pseq_eq_succ {α β : Type} {p : Parser α} {q : Parser β}
    {s : List Char} {pos p1 p2 : Nat} {alt a1 a2 : Option LocErr} {v : α} {w : β}
    (h1 : p s pos alt = (some (v, p1), a1)) (h2 : q s p1 a1 = (some (w, p2), a2)) :
    pseq p q s pos alt = (some ((v, w), p2), a2) := by
  unfold pseq; rw [h1]; dsimp only; rw [h2]

/-- Evaluation rule: a successful first alternative wins. -/
theorem por_eq_succ {α : Type} {p q : Parser α}
    {s : List Char} {pos : Nat} {alt a : Option LocErr} {r : α × Nat}
    (h : p s pos alt = (some r, a)) : por p q s pos alt = (some r, a) := by
  unfold por; rw [h]

/-- Evaluation rule: a failing first alternative passes control (and its
best error) to the second at the original position. -/
theorem por_eq_fail {α : Type} {p q : Parser α}
    {s : List Char} {pos : Nat} {alt a : Option LocErr}
    (h : p s pos alt = (none, a)) : por p q s pos alt = q s pos a := by
  unfold por; rw [h]

/-- Evaluation rule for `padded` on success. -/
theorem ppadded_eq_succ {α : Type} {p : Parser α}
    {s : List Char} {pos q : Nat} {alt a : Option LocErr} {v : α}
    (h : p s (skipWs s pos) alt = (some (v, q), a)) :
    ppadded p s pos alt = (some (v, skipWs s q), a) := by
  unfold ppadded; rw [h]

/-- Evaluation rule for `padded` on failure. -/
theorem ppadded_eq_fail {α : Type} {p : Parser α}
    {s : List Char} {pos : Nat} {alt a : Option LocErr}
    (h : p s (skipWs s pos) alt = (none, a)) :
    ppadded p s pos alt = (none, a) := by
  unfold ppadded; rw [h]

/-- Evaluation rule: a repetition stops at the first failure. -/
theorem prepGo_eq_fail {α : Type} {p : Parser α}
    {n : Nat} {s : List Char} {pos : Nat} {alt a : Option LocErr}
    (h : p s pos alt = (none, a)) : prepGo p (n + 1) s pos alt = ([], pos, a) := by
  unfold prepGo; rw [h]

/-- Evaluation rule: a repetition step collects a success. -/
theorem prepGo_eq_succ {α : Type} {p : Parser α}
    {n : Nat} {s : List Char} {pos q : Nat} {alt a : Option LocErr} {v : α}
    (h : p s pos alt = (some (v, q), a)) :
    prepGo p (n + 1) s pos alt =
      ((v :: (prepGo p n s q a).1, (prepGo p n s q a).2.1, (prepGo p n s q a).2.2)) := by
  conv_lhs => unfold prepGo; rw [h]

/-- Evaluation rule: a fold iteration stops at the first failure. -/
theorem pfoldlGo_eq_fail {α β : Type} {q : Parser β} {f : α → β → α}
    {n : Nat} {s : List Char} {acc : α} {pos : Nat} {alt a : Option LocErr}
    (h : q s pos alt = (none, a)) :
    pfoldlGo q f (n + 1) s acc pos alt = (acc, pos, a) := by
  unfold pfoldlGo; rw [h]

/-- Evaluation rule for `just` on a match. -/
theorem pjust_eq_succ {c : Char} {s : List Char} {pos : Nat} {alt : Option LocErr}
    (h : s[pos]? = some c) : pjust c s pos alt = (some (c, pos + 1), alt) := by
  unfold pjust; rw [if_pos h]

/-- Evaluation rule for `just` on a mismatch. -/
theorem pjust_eq_fail {c : Char} {s : List Char} {pos : Nat} {alt : Option LocErr}
    (h : ¬ s[pos]? = some c) :
    pjust c s pos alt = (none, addAlt alt (mkErr s pos [.tok c])) := by
  unfold pjust; rw [if_neg h]

/-- Evaluation rule: an identifier fails on a non-starting character. -/
theorem rawIdent_eq_fail {s : List Char} {pos : Nat} {alt : Option LocErr} {c : Char}
    (h : s[pos]? = some c) (hc : identStartChar c = false) :
    rawIdent s pos alt = (none, addAlt alt (mkErr s pos [.identLike])) := by
  unfold rawIdent; rw [h]; simp [hc]

/-- Evaluation rule: an identifier fails at the end of input. -/
theorem rawIdent_eq_fail_end {s : List Char} {pos : Nat} {alt : Option LocErr}
    (h : s[pos]? = none) :
    rawIdent s pos alt = (none, addAlt alt (mkErr s pos [.identLike])) := by
  unfold rawIdent; rw [h]

/-- Evaluation rule: a keyword fails when the identifier under it fails. -/
theorem keywordP_eq_fail {k : String} {s : List Char} {pos : Nat} {alt a : Option LocErr}
    (h : rawIdent s pos alt = (none, a)) : keywordP k s pos alt = (none, a) := by
  unfold keywordP; rw [h]

/-- Evaluation rule: an integer starting with a non-zero digit consumes the
whole digit run. -/
theorem rawInt_eq_nonzero {s : List Char} {pos : Nat} {c : Char} (alt : Option LocErr)
    (h : s[pos]? = some c) (h1 : digitChar c = true) (h2 : ¬ c = '0') :
    rawInt s pos alt =
      (some ((s.drop pos).take (scanWhile digitChar s (pos + 1) - pos),
             scanWhile digitChar s (pos + 1)), alt) := by
  unfold rawInt; rw [h]; simp [h1, h2]

/-- Evaluation rule: `ignore_then` fails when its first part fails. -/
theorem pignoreThen_eq_fail1 {α β : Type} {p : Parser α} {q : Parser β}
    {s : List Char} {pos : Nat} {alt a : Option LocErr}
    (h : p s pos alt = (none, a)) : pignoreThen p q s pos alt = (none, a) := by
  unfold pignoreThen; exact pmap_eq_fail (pseq_eq_fail1 h)

/-- Evaluation rule: `then_ignore` fails when its first part fails. -/
theorem pthenIgnore_eq_fail1 {α β : Type} {p : Parser α} {q : Parser β}
    {s : List Char} {pos : Nat} {alt a : Option LocErr}
    (h : p s pos alt = (none, a)) : pthenIgnore p q s pos alt = (none, a) := by
  unfold pthenIgnore; exact pmap_eq_fail (pseq_eq_fail1 h)

/-- Evaluation rule: `to` fails when its underlying parser fails. -/
theorem pto_eq_fail {α β : Type} {b : β} {p : Parser α}
    {s : List Char} {pos : Nat} {alt a : Option LocErr}
    (h : p s pos alt = (none, a)) : pto b p s pos alt = (none, a) := by
  unfold pto; exact pmap_eq_fail h

/-- Evaluation rule: a labelled parser fails when its inner parser fails
(with some processed best error). -/
theorem plabelled_eq_fail {α : Type} {lbl : String} {ctx : Bool} {p : Parser α}
    {s : List Char} {pos : Nat} {alt a : Option LocErr}
    (h : p s pos none = (none, a)) :
    ∃ a2, plabelled lbl ctx p s pos alt = (none, a2) := by
  unfold plabelled; rw [h]; exact ⟨_, rfl⟩

/-- On an all-digit input, padding never moves. -/
theorem skipWs_digits {s : List Char} (hall : ∀ c ∈ s, digitChar c = true)
    (pos : Nat) : skipWs s pos = pos := by
  by_cases h : pos < s.length
  · exact scanWhile_stop h (digit_not_ws (hall _ (s.get_mem _ _)))
  · exact scanWhile_ge (by omega)

/-- On an all-digit input with non-zero head, the `int` rule consumes the
whole input and yields its numeric value. -/
theorem intP_digits {c0 : Char} {tl : List Char}
    (hall : ∀ c ∈ c0 :: tl, digitChar c = true) (hc0 : ¬ c0 = '0')
    (alt : Option LocErr) :
    intP (c0 :: tl) 0 alt =
      (some (.Num (natOfDigits (c0 :: tl)), (c0 :: tl).length), alt) := by
  have hm : digitChar c0 = true := hall c0 (by simp)
  have h0 : (c0 :: tl)[0]? = some c0 := by simp
  have hscan : scanWhile digitChar (c0 :: tl) 1 = (c0 :: tl).length :=
    scanWhile_all hall 1 (Nat.succ_le_succ (Nat.zero_le tl.length))
  have hraw := rawInt_eq_nonzero alt h0 hm hc0
  rw [Nat.zero_add, hscan] at hraw
  rw [List.drop_zero, Nat.sub_zero, List.take_length] at hraw
  have hsk := skipWs_digits hall
  unfold intP
  rw [ppadded_eq_succ (by rw [hsk 0]; exact pmap_eq_succ hraw), hsk _]

/-- On an all-digit input with non-zero head, the `atom` rule is decided by
its first alternative, the integer literal. -/
theorem atomP_digits {c0 : Char} {tl : List Char} (e : Parser Expr)
    (hall : ∀ c ∈ c0 :: tl, digitChar c = true) (hc0 : ¬ c0 = '0')
    (alt : Option LocErr) :
    atomP e (c0 :: tl) 0 alt =
      (some (.Num (natOfDigits (c0 :: tl)), (c0 :: tl).length), alt) := by
  unfold atomP
  exact por_eq_succ (intP_digits hall hc0 alt)

/-- On an all-digit input, a padded operator character fails at the start. -/
theorem opP_fail_head {c0 : Char} {tl : List Char} {c : Char}
    (hall : ∀ ch ∈ c0 :: tl, digitChar ch = true)
    (hc : c.toNat < 48 ∨ 57 < c.toNat) (alt : Option LocErr) :
    opP c (c0 :: tl) 0 alt =
      (none, addAlt alt (mkErr (c0 :: tl) 0 [.tok c])) := by
  have hm : digitChar c0 = true := hall c0 (by simp)
  have h0 : (c0 :: tl)[0]? = some c0 := by simp
  have hsk := skipWs_digits hall
  unfold opP
  refine ppadded_eq_fail ?_
  rw [hsk 0]
  refine pjust_eq_fail ?_
  rw [h0]
  intro hcontra
  exact (digit_ne hm c hc) (Option.some.inj hcontra)

/-- A padded operator character fails at the end of the input. -/
theorem opP_fail_end {s : List Char} {c : Char}
    (hall : ∀ ch ∈ s, digitChar ch = true) (alt : Option LocErr) :
    opP c s s.length alt =
      (none, addAlt alt (mkErr s s.length [.tok c])) := by
  have hsk := skipWs_digits hall
  unfold opP
  refine ppadded_eq_fail ?_
  rw [hsk s.length]
  refine pjust_eq_fail ?_
  rw [List.getElem?_eq_none (Nat.le_refl _)]
  simp

/-- On an all-digit input with non-zero head, the `unary` rule collects no
minus signs and returns the atom. -/
theorem unaryP_digits {c0 : Char} {tl : List Char} (e : Parser Expr)
    (hall : ∀ c ∈ c0 :: tl, digitChar c = true) (hc0 : ¬ c0 = '0')
    (alt : Option LocErr) :
    ∃ a, unaryP e (c0 :: tl) 0 alt =
      (some (.Num (natOfDigits (c0 :: tl)), (c0 :: tl).length), a) := by
  refine ⟨addAlt alt (mkErr (c0 :: tl) 0 [.tok '-']), ?_⟩
  unfold unaryP pfoldr
  rw [prepGo_eq_fail (opP_fail_head hall (by decide) alt)]
  dsimp only
  rw [atomP_digits e hall hc0 _]
  rfl

/-- On an all-digit input with non-zero head, the `product` rule reduces to
its single operand. -/
theorem productP_digits {c0 : Char} {tl : List Char} (e : Parser Expr)
    (hall : ∀ c ∈ c0 :: tl, digitChar c = true) (hc0 : ¬ c0 = '0')
    (alt : Option LocErr) :
    ∃ a, productP e (c0 :: tl) 0 alt =
      (some (.Num (natOfDigits (c0 :: tl)), (c0 :: tl).length), a) := by
  obtain ⟨a1, hu⟩ := unaryP_digits e hall hc0 alt
  have h1 := pto_eq_fail (b := fun a b => Expr.Mul a b) (opP_fail_end (c := '*') hall a1)
  have h2 := pto_eq_fail (b := fun a b => Expr.Div a b)
    (opP_fail_end (c := '/') hall (addAlt a1 (mkErr (c0 :: tl) (c0 :: tl).length [.tok '*'])))
  have hpor : por (pto (fun a b => Expr.Mul a b) (opP '*'))
      (pto (fun a b => Expr.Div a b) (opP '/')) (c0 :: tl) (c0 :: tl).length a1 =
      (none, addAlt (addAlt a1 (mkErr (c0 :: tl) (c0 :: tl).length [.tok '*']))
        (mkErr (c0 :: tl) (c0 :: tl).length [.tok '/'])) := by
    rw [por_eq_fail h1]; exact h2
  have hstep := pseq_eq_fail1 (q := unaryP e) hpor
  refine ⟨addAlt (addAlt a1 (mkErr (c0 :: tl) (c0 :: tl).length [.tok '*']))
    (mkErr (c0 :: tl) (c0 :: tl).length [.tok '/']), ?_⟩
  unfold productP pfoldl
  rw [hu]
  dsimp only
  rw [pfoldlGo_eq_fail hstep]

/-- On an all-digit input with non-zero head, the `sum` rule reduces to its
single operand. -/
theorem sumP_digits {c0 : Char} {tl : List Char} (e : Parser Expr)
    (hall : ∀ c ∈ c0 :: tl, digitChar c = true) (hc0 : ¬ c0 = '0')
    (alt : Option LocErr) :
    ∃ a, sumP e (c0 :: tl) 0 alt =
      (some (.Num (natOfDigits (c0 :: tl)), (c0 :: tl).length), a) := by
  obtain ⟨a1, hu⟩ := productP_digits e hall hc0 alt
  have h1 := pto_eq_fail (b := fun a b => Expr.Add a b) (opP_fail_end (c := '+') hall a1)
  have h2 := pto_eq_fail (b := fun a b => Expr.Sub a b)
    (opP_fail_end (c := '-') hall (addAlt a1 (mkErr (c0 :: tl) (c0 :: tl).length [.tok '+'])))
  have hpor : por (pto (fun a b => Expr.Add a b) (opP '+'))
      (pto (fun a b => Expr.Sub a b) (opP '-')) (c0 :: tl) (c0 :: tl).length a1 =
      (none, addAlt (addAlt a1 (mkErr (c0 :: tl) (c0 :: tl).length [.tok '+']))
        (mkErr (c0 :: tl) (c0 :: tl).length [.tok '-'])) := by
    rw [por_eq_fail h1]; exact h2
  have hstep := pseq_eq_fail1 (q := productP e) hpor
  refine ⟨addAlt (addAlt a1 (mkErr (c0 :: tl) (c0 :: tl).length [.tok '+']))
    (mkErr (c0 :: tl) (c0 :: tl).length [.tok '-']), ?_⟩
  unfold sumP pfoldl
  rw [hu]
  dsimp only
  rw [pfoldlGo_eq_fail hstep]

/-- On an all-digit input with non-zero head, the whole expression grammar
yields the numeric literal, for any positive fuel. -/
theorem exprP_digits {c0 : Char} {tl : List Char} {m : Nat} (hm : 1 ≤ m)
    (hall : ∀ c ∈ c0 :: tl, digitChar c = true) (hc0 : ¬ c0 = '0')
    (alt : Option LocErr) :
    ∃ a, exprP m (c0 :: tl) 0 alt =
      (some (.Num (natOfDigits (c0 :: tl)), (c0 :: tl).length), a) := by
  cases m with
  | zero => omega
  | succ k =>
    unfold exprP
    exact sumP_digits (exprP k) hall hc0 alt

/-- On an all-digit input, the padded identifier rule fails at the start. -/
theorem identP_fail_digits {c0 : Char} {tl : List Char}
    (hall : ∀ c ∈ c0 :: tl, digitChar c = true) (alt : Option LocErr) :
    identP (c0 :: tl) 0 alt =
      (none, addAlt alt (mkErr (c0 :: tl) 0 [.identLike])) := by
  have hm : digitChar c0 = true := hall c0 (by simp)
  have hsk := skipWs_digits hall
  unfold identP
  refine ppadded_eq_fail ?_
  rw [hsk 0]
  exact rawIdent_eq_fail (by simp) (digit_not_identStart hm)

/-- On an all-digit input, any keyword fails at the start. -/
theorem keywordP_fail_digits {c0 : Char} {tl : List Char} {k : String}
    (hall : ∀ c ∈ c0 :: tl, digitChar c = true) (alt : Option LocErr) :
    keywordP k (c0 :: tl) 0 alt =
      (none, addAlt alt (mkErr (c0 :: tl) 0 [.identLike])) := by
  have hm : digitChar c0 = true := hall c0 (by simp)
  exact keywordP_eq_fail (rawIdent_eq_fail (by simp) (digit_not_identStart hm))

/-- On an all-digit input, the let-in rule fails at the start. -/
theorem letInP_fail_digits {c0 : Char} {tl : List Char} (d : Parser Expr)
    (hall : ∀ c ∈ c0 :: tl, digitChar c = true) (alt : Option LocErr) :
    ∃ a, letInP d (c0 :: tl) 0 alt = (none, a) := by
  unfold letInP
  exact plabelled_eq_fail (pmap_eq_fail (pseq_eq_fail1 (pthenIgnore_eq_fail1
    (pignoreThen_eq_fail1 (keywordP_fail_digits hall none)))))

/-- On an all-digit input, the lambda rule fails at the start. -/
theorem funcP_fail_digits {c0 : Char} {tl : List Char} (d : Parser Expr)
    (hall : ∀ c ∈ c0 :: tl, digitChar c = true) (alt : Option LocErr) :
    ∃ a, funcP d (c0 :: tl) 0 alt = (none, a) := by
  unfold funcP
  exact ⟨_, pmap_eq_fail (pseq_eq_fail1 (pthenIgnore_eq_fail1
    (identP_fail_digits hall alt)))⟩

/-- On an all-digit input with non-zero head, the declaration grammar
yields the numeric literal, for any positive fuel. -/
theorem declP_digits {c0 : Char} {tl : List Char} {m : Nat} (hm : 1 ≤ m)
    (hall : ∀ c ∈ c0 :: tl, digitChar c = true) (hc0 : ¬ c0 = '0')
    (alt : Option LocErr) :
    ∃ a, declP m (c0 :: tl) 0 alt =
      (some (.Num (natOfDigits (c0 :: tl)), (c0 :: tl).length), a) := by
  cases m with
  | zero => omega
  | succ k =>
    have hsk := skipWs_digits hall
    obtain ⟨a1, hlet⟩ := letInP_fail_digits (declP k) hall alt
    obtain ⟨a2, hfunc⟩ := funcP_fail_digits (declP k) hall a1
    obtain ⟨a3, hexpr⟩ := exprP_digits (m := k + 1) (Nat.succ_le_succ (Nat.zero_le k))
      hall hc0 a2
    refine ⟨a3, ?_⟩
    unfold declP
    have hinner : por (letInP (declP k)) (por (funcP (declP k)) (exprP (k + 1)))
        (c0 :: tl) 0 alt =
        (some (.Num (natOfDigits (c0 :: tl)), (c0 :: tl).length), a3) := by
      rw [por_eq_fail hlet, por_eq_fail hfunc]
      exact hexpr
    rw [ppadded_eq_succ (by rw [hsk 0]; exact hinner), hsk _]

/-- The whole parse of a non-empty all-digit input with no leading zero
(or the lone zero) is the numeric literal with no errors. -/
theorem parseChars_digits {s : List Char}
    (hall : ∀ c ∈ s, digitChar c = true) (hne : s ≠ [])
    (hz : s.head? = some '0' → s = ['0']) :
    parseChars s = (some (.Num (natOfDigits s)), []) := by
  cases s with
  | nil => exact absurd rfl hne
  | cons c0 tl =>
    by_cases hc0 : c0 = '0'
    · have : c0 :: tl = ['0'] := hz (by rw [hc0]; rfl)
      rw [this]
      rfl
    · obtain ⟨a, hd⟩ := declP_digits (m := parseFuel (c0 :: tl))
        (by unfold parseFuel; omega) hall hc0 none
      unfold parseChars
      rw [hd]
      dsimp only
      rw [if_pos rfl]

/-- List form of the call invariant. -/
theorem callsOkL_iff {l : List Expr} :
    callsOkL l = true ↔ ∀ x ∈ l, callsOk x = true := by
  induction l with
  | nil => simp [callsOkL]
  | cons e es ih =>
    unfold callsOkL
    rw [Bool.and_eq_true, ih]
    constructor
    · rintro ⟨h1, h2⟩ x hx
      rcases List.mem_cons.mp hx with rfl | hx
      · exact h1
      · exact h2 x hx
    · intro h
      exact ⟨h e (List.mem_cons_self _ _), fun x hx => h x (List.mem_cons_of_mem _ hx)⟩

/-- Any parser ensures a universally true postcondition. -/
theorem ensP_true {α : Type} {p : Parser α} : EnsP p (fun _ => True) :=
  fun _ _ _ _ _ _ _ => trivial

/-- Inversion: a successful `map` comes from a successful inner run. -/
theorem pmap_inv {α β : Type} {f : α → β} {p : Parser α}
    {s : List Char} {pos q : Nat} {alt a : Option LocErr} {v : β}
    (hh : pmap f p s pos alt = (some (v, q), a)) :
    ∃ v0, p s pos alt = (some (v0, q), a) ∧ v = f v0 := by
  unfold pmap at hh
  split at hh
  next v0 q0 a0 heq =>
    simp only [Prod.mk.injEq, Option.some.injEq] at hh
    obtain ⟨⟨hv, hq⟩, ha⟩ := hh
    exact ⟨v0, by rw [heq, hq, ha], hv.symm⟩
  next heq => simp at hh

/-- Inversion: a successful sequence comes from two successful runs. -/
theorem pseq_inv {α β : Type} {p : Parser α} {q : Parser β}
    {s : List Char} {pos p2 : Nat} {alt a2 : Option LocErr} {vw : α × β}
    (hh : pseq p q s pos alt = (some (vw, p2), a2)) :
    ∃ p1 a1, p s pos alt = (some (vw.1, p1), a1) ∧
      q s p1 a1 = (some (vw.2, p2), a2) := by
  unfold pseq at hh
  split at hh
  next v0 p1 a1 heq1 =>
    split at hh
    next w0 q0 a0 heq2 =>
      simp only [Prod.mk.injEq, Option.some.injEq] at hh
      obtain ⟨⟨hvw, hq⟩, ha⟩ := hh
      refine ⟨p1, a1, ?_, ?_⟩
      · rw [heq1, ← hvw]
      · rw [heq2, ← hvw, hq, ha]
    next heq2 => simp at hh
  next heq => simp at hh

/-- Inversion: a successful alternative comes from one of the two sides. -/
theorem por_inv {α : Type} {p q : Parser α}
    {s : List Char} {pos : Nat} {alt a : Option LocErr} {r : α × Nat}
    (hh : por p q s pos alt = (some r, a)) :
    p s pos alt = (some r, a) ∨
      ∃ a1, p s pos alt = (none, a1) ∧ q s pos a1 = (some r, a) := by
  unfold por at hh
  split at hh
  next r0 a0 heq =>
    simp only [Prod.mk.injEq, Option.some.injEq] at hh
    obtain ⟨hr, ha⟩ := hh
    exact Or.inl (by rw [heq, hr, ha])
  next a0 heq => exact Or.inr ⟨a0, heq, hh⟩

/-- Inversion for `padded`. -/
theorem ppadded_inv {α : Type} {p : Parser α}
    {s : List Char} {pos q : Nat} {alt a : Option LocErr} {v : α}
    (hh : ppadded p s pos alt = (some (v, q), a)) :
    ∃ q0, p s (skipWs s pos) alt = (some (v, q0), a) := by
  unfold ppadded at hh
  split at hh
  next v0 q0 a0 heq =>
    simp only [Prod.mk.injEq, Option.some.injEq] at hh
    obtain ⟨⟨hv, hq⟩, ha⟩ := hh
    exact ⟨q0, by rw [heq, hv, ha]⟩
  next heq => simp at hh

/-- Inversion for `labelled`. -/
theorem plabelled_inv {α : Type} {lbl : String} {ctx : Bool} {p : Parser α}
    {s : List Char} {pos q : Nat} {alt a : Option LocErr} {v : α}
    (hh : plabelled lbl ctx p s pos alt = (some (v, q), a)) :
    ∃ a1, p s pos none = (some (v, q), a1) := by
  unfold plabelled at hh
  split at hh
  next res inner heq =>
    simp only [Prod.mk.injEq] at hh
    obtain ⟨hres, ha⟩ := hh
    exact ⟨inner, by rw [heq, hres]⟩

/-- `map` transports a postcondition along the mapped function. -/
theorem ensP_pmap {α β : Type} {p : Parser α} {P : α → Prop} {Q : β → Prop}
    {f : α → β} (h : EnsP p P) (hf : ∀ v, P v → Q (f v)) : EnsP (pmap f p) Q := by
  intro s pos alt v q a hh
  obtain ⟨v0, heq, rfl⟩ := pmap_inv hh
  exact hf v0 (h _ _ _ _ _ _ heq)

/-- A sequence ensures the conjunction of its parts' postconditions. -/
theorem ensP_pseq {α β : Type} {p : Parser α} {q : Parser β}
    {P : α → Prop} {Q : β → Prop} (hp : EnsP p P) (hq : EnsP q Q) :
    EnsP (pseq p q) (fun vw => P vw.1 ∧ Q vw.2) := by
  intro s pos alt v qq a hh
  obtain ⟨p1, a1, h1, h2⟩ := pseq_inv hh
  exact ⟨hp _ _ _ _ _ _ h1, hq _ _ _ _ _ _ h2⟩

/-- An alternative ensures a postcondition both sides ensure. -/
theorem ensP_por {α : Type} {p q : Parser α} {P : α → Prop}
    (hp : EnsP p P) (hq : EnsP q P) : EnsP (por p q) P := by
  intro s pos alt v qq a hh
  rcases por_inv hh with h | ⟨a1, _, h⟩
  · exact hp _ _ _ _ _ _ h
  · exact hq _ _ _ _ _ _ h

/-- `padded` preserves the inner postcondition. -/
theorem ensP_ppadded {α : Type} {p : Parser α} {P : α → Prop}
    (h : EnsP p P) : EnsP (ppadded p) P := by
  intro s pos alt v q a hh
  obtain ⟨q0, heq⟩ := ppadded_inv hh
  exact h _ _ _ _ _ _ heq

/-- `labelled` preserves the inner postcondition. -/
theorem ensP_plabelled {α : Type} {lbl : String} {ctx : Bool} {p : Parser α}
    {P : α → Prop} (h : EnsP p P) : EnsP (plabelled lbl ctx p) P := by
  intro s pos alt v q a hh
  obtain ⟨a1, heq⟩ := plabelled_inv hh
  exact h _ _ _ _ _ _ heq

/-- `then_ignore` keeps the first part's postcondition. -/
theorem ensP_pthenIgnore {α β : Type} {p : Parser α} {q : Parser β}
    {P : α → Prop} (hp : EnsP p P) : EnsP (pthenIgnore p q) P := by
  unfold pthenIgnore
  exact ensP_pmap (ensP_pseq hp (ensP_true (p := q))) (fun v hv => hv.1)

/-- `ignore_then` keeps the second part's postcondition. -/
theorem ensP_pignoreThen {α β : Type} {p : Parser α} {q : Parser β}
    {Q : β → Prop} (hq : EnsP q Q) : EnsP (pignoreThen p q) Q := by
  unfold pignoreThen
  exact ensP_pmap (ensP_pseq (ensP_true (p := p)) hq) (fun v hv => hv.2)

/-- `to` ensures any property of its constant. -/
theorem ensP_pto {α β : Type} {b : β} {p : Parser α} {Q : β → Prop}
    (hb : Q b) : EnsP (pto b p) Q := by
  unfold pto
  exact ensP_pmap (ensP_true (p := p)) (fun _ _ => hb)

/-- Every element the repetition loop collects is an output of the
repeated parser. -/
theorem prepGo_ens {α : Type} {p : Parser α} {P : α → Prop} (hp : EnsP p P) :
    ∀ (n : Nat) (s : List Char) (pos : Nat) (alt : Option LocErr),
      ∀ x ∈ (prepGo p n s pos alt).1, P x := by
  intro n
  induction n with
  | zero => intro s pos alt x hx; simp [prepGo] at hx
  | succ k ih =>
    intro s pos alt x hx
    unfold prepGo at hx
    split at hx
    next v q a heq =>
      dsimp only at hx
      rcases List.mem_cons.mp hx with rfl | hx
      · exact hp _ _ _ _ _ _ heq
      · exact ih s q a x hx
    next a heq => simp at hx

/-- A bounded repetition ensures its minimum count and the element
postcondition. -/
theorem ensP_prepC {α : Type} {m : Nat} {p : Parser α} {P : α → Prop}
    (hp : EnsP p P) :
    EnsP (prepC m p) (fun l => m ≤ l.length ∧ ∀ x ∈ l, P x) := by
  intro s pos alt v q a hh
  unfold prepC at hh
  dsimp only at hh
  split at hh
  next hmin =>
    simp only [Prod.mk.injEq, Option.some.injEq] at hh
    obtain ⟨⟨hv, hq⟩, ha⟩ := hh
    subst hv
    exact ⟨hmin, prepGo_ens hp _ _ _ _⟩
  next hmin => simp at hh

/-- The fold loop preserves an accumulator invariant. -/
theorem pfoldlGo_ens {α β : Type} {q : Parser β} {f : α → β → α}
    {P : α → Prop} {Q : β → Prop} (hq : EnsP q Q)
    (hf : ∀ acc b, P acc → Q b → P (f acc b)) :
    ∀ (n : Nat) (s : List Char) (acc : α) (pos : Nat) (alt : Option LocErr),
      P acc → P (pfoldlGo q f n s acc pos alt).1 := by
  intro n
  induction n with
  | zero => intro s acc pos alt hacc; exact hacc
  | succ k ih =>
    intro s acc pos alt hacc
    unfold pfoldlGo
    split
    next b p2 a heq => exact ih s (f acc b) p2 a (hf acc b hacc (hq _ _ _ _ _ _ heq))
    next a heq => exact hacc

/-- `foldl` preserves an invariant ensured by the head and each step. -/
theorem ensP_pfoldl {α β : Type} {p : Parser α} {q : Parser β} {f : α → β → α}
    {P : α → Prop} {Q : β → Prop} (hp : EnsP p P) (hq : EnsP q Q)
    (hf : ∀ acc b, P acc → Q b → P (f acc b)) : EnsP (pfoldl p q f) P := by
  intro s pos alt v qq a hh
  unfold pfoldl at hh
  split at hh
  next v0 p1 a1 heq =>
    simp only [Prod.mk.injEq, Option.some.injEq] at hh
    obtain ⟨⟨hv, hq2⟩, ha⟩ := hh
    subst hv
    exact pfoldlGo_ens hq hf _ _ _ _ _ (hp _ _ _ _ _ _ heq)
  next heq => simp at hh

/-- Folding a list of prefix operators preserves the operand invariant. -/
theorem foldr_pres {α β : Type} {f : β → α → α} {P : α → Prop}
    (hf : ∀ b acc, P acc → P (f b acc)) :
    ∀ (l : List β) (acc : α), P acc → P (List.foldr f acc l) := by
  intro l
  induction l with
  | nil => intro acc h; exact h
  | cons b bs ih => intro acc h; exact hf b _ (ih acc h)

/-- `foldr` preserves an invariant of the operand under each operator. -/
theorem ensP_pfoldr {α β : Type} {ops : Parser β} {p : Parser α} {f : β → α → α}
    {P : α → Prop} (hp : EnsP p P) (hf : ∀ b acc, P acc → P (f b acc)) :
    EnsP (pfoldr ops p f) P := by
  intro s pos alt v q a hh
  unfold pfoldr at hh
  dsimp only at hh
  split at hh
  next v0 p2 a2 heq =>
    simp only [Prod.mk.injEq, Option.some.injEq] at hh
    obtain ⟨⟨hv, hq⟩, ha⟩ := hh
    subst hv
    exact foldr_pres hf _ _ (hp _ _ _ _ _ _ heq)
  next heq => simp at hh

/-- `delimited_by` preserves the inner postcondition. -/
theorem ensP_pdelimBy {α : Type} {p : Parser α} {l r : Char} {P : α → Prop}
    (hp : EnsP p P) : EnsP (pdelimBy p l r) P := by
  unfold pdelimBy
  exact ensP_pignoreThen (ensP_pthenIgnore hp)

/-- The integer rule only produces `Num` nodes, which satisfy the call
invariant. -/
theorem ensP_intP : EnsP intP (fun x => callsOk x = true) := by
  unfold intP
  exact ensP_ppadded (ensP_pmap ensP_true (fun v _ => by simp [callsOk]))

/-- The call rule produces a `Call` with at least one argument, all of
which satisfy the invariant. -/
theorem callP_ens {e : Parser Expr} (he : EnsP e (fun x => callsOk x = true)) :
    EnsP (callP e) (fun x => callsOk x = true) := by
  unfold callP
  refine ensP_pmap (ensP_pseq (ensP_true (p := identP))
    (ensP_prepC (ensP_ppadded he))) ?_
  rintro ⟨f, args⟩ ⟨-, hlen, hall⟩
  show callsOk (.Call f args) = true
  have hl : callsOkL args = true := callsOkL_iff.mpr hall
  cases args with
  | nil => simp at hlen
  | cons x xs => simp [callsOk, hl]

/-- The atom rule preserves the call invariant. -/
theorem atomP_ens {e : Parser Expr} (he : EnsP e (fun x => callsOk x = true)) :
    EnsP (atomP e) (fun x => callsOk x = true) := by
  unfold atomP
  exact ensP_por ensP_intP (ensP_por (ensP_pdelimBy he)
    (ensP_por (callP_ens he) (ensP_pmap ensP_true (fun v _ => by simp [callsOk]))))

/-- The unary rule preserves the call invariant. -/
theorem unaryP_ens {e : Parser Expr} (he : EnsP e (fun x => callsOk x = true)) :
    EnsP (unaryP e) (fun x => callsOk x = true) := by
  unfold unaryP
  exact ensP_pfoldr (atomP_ens he) (fun b acc h => by simp [callsOk, h])

/-- The product rule preserves the call invariant. -/
theorem productP_ens {e : Parser Expr} (he : EnsP e (fun x => callsOk x = true)) :
    EnsP (productP e) (fun x => callsOk x = true) := by
  unfold productP
  refine ensP_pfoldl (unaryP_ens he)
    (ensP_pseq (ensP_por
        (ensP_pto (Q := fun g => ∀ a b, callsOk a = true → callsOk b = true →
          callsOk (g a b) = true) (fun a b ha hb => by simp [callsOk, ha, hb]))
        (ensP_pto (fun a b ha hb => by simp [callsOk, ha, hb])))
      (unaryP_ens he))
    ?_
  rintro acc gr hacc ⟨hg, hr⟩
  exact hg acc gr.2 hacc hr

/-- The sum rule preserves the call invariant. -/
theorem sumP_ens {e : Parser Expr} (he : EnsP e (fun x => callsOk x = true)) :
    EnsP (sumP e) (fun x => callsOk x = true) := by
  unfold sumP
  refine ensP_pfoldl (productP_ens he)
    (ensP_pseq (ensP_por
        (ensP_pto (Q := fun g => ∀ a b, callsOk a = true → callsOk b = true →
          callsOk (g a b) = true) (fun a b ha hb => by simp [callsOk, ha, hb]))
        (ensP_pto (fun a b ha hb => by simp [callsOk, ha, hb])))
      (productP_ens he))
    ?_
  rintro acc gr hacc ⟨hg, hr⟩
  exact hg acc gr.2 hacc hr

/-- The whole expression grammar maintains the call invariant at any fuel. -/
theorem exprP_ens : ∀ n, EnsP (exprP n) (fun x => callsOk x = true) := by
  intro n
  induction n with
  | zero => intro s pos alt v q a hh; unfold exprP at hh; simp at hh
  | succ k ih => unfold exprP; exact sumP_ens ih

/-- The binding rule preserves the call invariant. -/
theorem bindingP_ens {d : Parser Expr} (hd : EnsP d (fun x => callsOk x = true)) :
    EnsP (bindingP d) (fun x => callsOk x = true) := by
  unfold bindingP
  refine ensP_plabelled (ensP_pmap (ensP_ppadded (ensP_pthenIgnore
    (ensP_pseq (ensP_pthenIgnore (ensP_true (p := identP))) hd))) ?_)
  rintro ⟨nm, v⟩ ⟨-, hv⟩
  show callsOk (.Binding nm v) = true
  simp [callsOk, hv]

/-- The let-in rule preserves the call invariant. -/
theorem letInP_ens {d : Parser Expr} (hd : EnsP d (fun x => callsOk x = true)) :
    EnsP (letInP d) (fun x => callsOk x = true) := by
  unfold letInP
  refine ensP_plabelled (ensP_pmap (ensP_pseq (ensP_pthenIgnore
    (ensP_pignoreThen (ensP_prepC (bindingP_ens hd)))) hd) ?_)
  rintro ⟨bs, b⟩ ⟨⟨-, hall⟩, hb⟩
  show callsOk (.LetIn bs b) = true
  simp [callsOk, callsOkL_iff.mpr hall, hb]

/-- The lambda rule preserves the call invariant. -/
theorem funcP_ens {d : Parser Expr} (hd : EnsP d (fun x => callsOk x = true)) :
    EnsP (funcP d) (fun x => callsOk x = true) := by
  unfold funcP
  refine ensP_pmap (ensP_pseq (ensP_pthenIgnore (ensP_true (p := identP))) hd) ?_
  rintro ⟨nm, b⟩ ⟨-, hb⟩
  show callsOk (.Lambda nm b) = true
  simp [callsOk, hb]

/-- The whole declaration grammar maintains the call invariant at any
fuel. -/
theorem declP_ens : ∀ n, EnsP (declP n) (fun x => callsOk x = true) := by
  intro n
  induction n with
  | zero => intro s pos alt v q a hh; unfold declP at hh; simp at hh
  | succ k ih =>
    unfold declP
    exact ensP_ppadded (ensP_por (letInP_ens ih)
      (ensP_por (funcP_ens ih) (exprP_ens (k + 1))))

/-- Every tree the parser outputs satisfies the call invariant. -/
theorem parseChars_callsOk {s : List Char} {e : Expr}
    (h : (parseChars s).1 = some e) : callsOk e = true := by
  unfold parseChars at h
  split at h
  next e0 p alt heq =>
    by_cases hp2 : p = s.length
    · rw [if_pos hp2] at h
      simp only [Option.some.injEq] at h
      subst h
      exact declP_ens _ _ _ _ _ _ _ heq
    · rw [if_neg hp2] at h
      simp at h
  next alt heq => simp at h

/-- Helper: a parse run reports at most one error (the source installs no
recovery strategy, so chumsky stops at the first error). -/
theorem optErrList_le_one (o : Option LocErr) :
    ((o.map LocErr.err).toList).length ≤ 1 := by
  cases o <;> simp

/-- Helper: the error list of any parse has at most one element. -/
theorem parse_errors_le_one (s : String) : (parse s).2.length ≤ 1 := by
  unfold parse parseChars
  split
  next e0 p alt heq =>
    by_cases hp : p = s.data.length
    · rw [if_pos hp]
      simp
    · rw [if_neg hp]
      exact optErrList_le_one _
  next alt heq => exact optErrList_le_one _

/-- Helper: merging a new error into the best-so-far slot always yields an
error. -/
theorem addAlt_isSome (alt : Option LocErr) (e : LocErr) :
    ∃ y, addAlt alt e = some y := by
  unfold addAlt
  cases alt with
  | none => exact ⟨e, rfl⟩
  | some a =>
    dsimp only
    split
    · exact ⟨_, rfl⟩
    · split
      · exact ⟨_, rfl⟩
      · exact ⟨_, rfl⟩

/-- C1: the claim that call arguments are parsed at atom level fails on the
code: arguments are full expressions, so in `f x y` the argument parse
swallows `x y` as a nested call and the result is not the flat two-argument
call the claim requires. -/
theorem c1_counterexample :
    (parse "f x y").1 ≠ some (.Call "f" [.Reference "x", .Reference "y"]) := by
  intro h
  have h2 : (parse "f x y").1 = some (.Call "f" [.Call "x" [.Reference "y"]]) := rfl
  rw [h2] at h
  simp at h

/-- C1 (amended): call arguments are full expressions, so `f x y` parses as
the nested `Call("f", [Call("x", [Reference("y")])])`; a lone identifier
`f` still parses as `Reference("f")`, and every `Call` node in any produced
tree has at least one argument. -/
theorem c1_amended :
    parse "f x y" = (some (.Call "f" [.Call "x" [.Reference "y"]]), []) ∧
    parse "f" = (some (.Reference "f"), []) ∧
    (∀ (s : String) (e : Expr), (parse s).1 = some e → callsOk e = true) := by
  refine ⟨rfl, rfl, ?_⟩
  intro s e h
  exact parseChars_callsOk h

/-- C1 witness: the amended theorem applied to the input `f x y`. -/
theorem c1_amended_witness :
    callsOk (.Call "f" [.Call "x" [.Reference "y"]]) = true :=
  c1_amended.2.2 "f x y" (.Call "f" [.Call "x" [.Reference "y"]]) rfl

/-- C2: the claim is false: the source installs no recovery strategy, so a
run never carries two or more errors — no input produces more than one. -/
theorem c2_counterexample : ¬ ∃ s : String, 2 ≤ (parse s).2.length := by
  rintro ⟨s, hs⟩
  have h := parse_errors_le_one s
  omega

/-- C2 (amended): parsing stops at the first error: the result of any parse
carries at most one error. -/
theorem c2_amended : ∀ s : String, (parse s).2.length ≤ 1 :=
  parse_errors_le_one

/-- C3: the claim fails on the code: `let in x` does not produce a zero-
binding `LetIn`, because the unpadded `in` keyword cannot match after the
whitespace following `let`. -/
theorem c3_counterexample :
    (parse "let in x").1 ≠ some (.LetIn [] (.Reference "x")) := by
  intro h
  have h2 : (parse "let in x").1 =
      some (.Call "let" [.Call "in" [.Reference "x"]]) := rfl
  rw [h2] at h
  simp at h

/-- C3 (amended): `let in x` parses successfully with an empty error list,
but as the call tree `Call("let", [Call("in", [Reference("x")])])`: the
let-in rule with zero bindings never fires because `text::keyword("in")` is
not padded and the space after `let` is consumed by nothing. -/
theorem c3_amended :
    parse "let in x" = (some (.Call "let" [.Call "in" [.Reference "x"]]), []) := rfl

/-- C4: the context-label part of the claim fails on the code: the single
reported error for `let a = ; in a` has an empty context stack, because
`labelled` without `as_context` never pushes contexts. -/
theorem c4_counterexample :
    (parse "let a = ; in a").2.map RErr.contexts = [[]] ∧
    (parse "let a = ; in a").2 ≠ [] := by
  refine ⟨rfl, ?_⟩
  intro h
  have hl : (parse "let a = ; in a").2.length = 1 := rfl
  rw [h] at hl
  simp at hl

/-- C4 (amended): on `let a = ; in a` the parser reports exactly one error
and no tree; the error's primary span is `(8, 9)`, covering the `;`, and
the found token is `;`; but the context stack is empty — the `let-in`
label surfaces only in the expected set (via `label_with`, since that
inner let-in attempt failed at its own start), and `binding` appears
nowhere. -/
theorem c4_amended :
    (parse "let a = ; in a").1 = none ∧
    (parse "let a = ; in a").2.length = 1 ∧
    (parse "let a = ; in a").2.map RErr.span = [(8, 9)] ∧
    (parse "let a = ; in a").2.map RErr.found = [some ';'] ∧
    (parse "let a = ; in a").2.map RErr.contexts = [[]] ∧
    (parse "let a = ; in a").2.all
      (fun er => er.expected.contains (Pat.label "let-in")) = true :=
  ⟨rfl, rfl, rfl, rfl, rfl, rfl⟩

/-- C5: the universal claim fails on the code at the digit string `007`:
`text::int(10)` rejects leading zeros, so the parse consumes only `0`,
fails the end-of-input check, and yields no tree and a non-empty error
list instead of `Num(7.0)`. -/
theorem c5_counterexample :
    (parse "007").1 = none ∧ (parse "007").2 ≠ [] := by
  refine ⟨rfl, ?_⟩
  intro h
  have hl : (parse "007").2.length = 1 := rfl
  rw [h] at hl
  simp at hl

/-- C5 (amended): parsing never crashes (the model is a total function and
the `f64` conversion cannot fail on digit runs), and every non-empty digit
string without a leading zero — equivalently, a lone `0` — whose value is
representable exactly in a 64-bit float (below `2 ^ 53`, where binary64
represents every integer) parses to `Num` with exactly the numeric value of
the digit string and an empty error list; digit strings with leading zeros
are not single literals.  The representability bound is not consumed by the
proof — the `Nat`-payload model is exact everywhere — but it scopes the
statement to the inputs on which that model coincides with the program's
`f64`: beyond `2 ^ 53` the program stores a rounded value the model does
not track. -/
theorem c5_amended :
    ∀ ds : List Char, (∀ c ∈ ds, digitChar c = true) → ds ≠ [] →
      (ds.head? = some '0' → ds = ['0']) → natOfDigits ds < 2 ^ 53 →
      parseChars ds = (some (.Num (natOfDigits ds)), []) :=
  fun _ h1 h2 h3 _ => parseChars_digits h1 h2 h3

/-- C5 witness: the amended theorem applied to the digit string `42`. -/
theorem c5_amended_witness :
    parseChars ['4', '2'] = (some (.Num 42), []) :=
  c5_amended ['4', '2'] (by decide) (by decide) (by decide) (by decide)

/-- C6: precedence and associativity: chained unary minus nests, the sum
level folds left, and `*` binds tighter than `+`. -/
theorem c6_theorem :
    parse "--5" = (some (.Neg (.Neg (.Num 5))), []) ∧
    parse "1 - 2 - 3" = (some (.Sub (.Sub (.Num 1) (.Num 2)) (.Num 3)), []) ∧
    parse "2 + 3 * 4" = (some (.Add (.Num 2) (.Mul (.Num 3) (.Num 4))), []) :=
  ⟨rfl, rfl, rfl⟩

/-- C7: the declaration rule tries let-in, then lambda, then expression, so
`x: x + 1` parses as a lambda with body `x + 1` and an empty error list
(never as a lone reference with trailing input). -/
theorem c7_theorem :
    parse "x: x + 1" = (some (.Lambda "x" (.Add (.Reference "x") (.Num 1))), []) := rfl

/-- C8: parsing is deterministic: the parse is a pure function of the input
string (the embedding mirrors the source's freedom from shared mutable
state and randomness), so equal inputs give structurally identical trees
and identical error lists. -/
theorem c8_theorem : ∀ s t : String, s = t → parse s = parse t := by
  intro s t h
  rw [h]

/-- C8 witness: the determinism theorem applied to a concrete input. -/
theorem c8_theorem_witness : parse "1 + 2" = parse "1 + 2" :=
  c8_theorem "1 + 2" "1 + 2" rfl

/-- C9: `let` and `in` are not reserved: `in` alone parses to
`Reference("in")` with no errors, and `let x` parses as a call with head
`let`. -/
theorem c9_theorem :
    parse "in" = (some (.Reference "in"), []) ∧
    parse "let x" = (some (.Call "let" [.Reference "x"]), []) :=
  ⟨rfl, rfl⟩

/-- C10: the parser succeeds only on full input consumption: whenever the
declaration grammar succeeds but leaves input unconsumed, the run reports
no tree and a non-empty error list; in particular on `1 )`. -/
theorem c10_theorem :
    (∀ (s : List Char) (e : Expr) (p : Nat) (alt : Option LocErr),
      declP (parseFuel s) s 0 none = (some (e, p), alt) → ¬ p = s.length →
      (parseChars s).1 = none ∧ (parseChars s).2 ≠ []) ∧
    (parse "1 )").1 = none ∧ (parse "1 )").2 ≠ [] := by
  constructor
  · intro s e p alt heq hne
    unfold parseChars
    rw [heq]
    dsimp only
    rw [if_neg hne]
    obtain ⟨y, hy⟩ := addAlt_isSome alt (mkErr s p [.endInput])
    rw [hy]
    simp
  · refine ⟨rfl, ?_⟩
    intro h
    have hl : (parse "1 )").2.length = 1 := rfl
    rw [h] at hl
    simp at hl

/-- C10 witness: the full-consumption theorem applied to `1 )`, whose
declaration parse succeeds at position 2 of 3. -/
theorem c10_theorem_witness :
    (parseChars ("1 )".data)).1 = none ∧ (parseChars ("1 )".data)).2 ≠ [] :=
  c10_theorem.1 ("1 )".data) (.Num 1) 2
    ((declP (parseFuel ("1 )".data)) ("1 )".data) 0 none).2) (by rfl) (by decide)
